import Mathlib

/-!
# Verification of the millionaire stock-trading core

A shallow embedding of the `millionaire` crate: `Stock` and `Player` from
`src/lib.rs`, the `Game` aggregate and its save-file contract from
`src/save.rs`, and the session loop of `run_game` from `src/main.rs`.

Conventions of the embedding:
* Rust `i64` values are modelled as `Int`; Rust's `/` on `i64` truncates
  toward zero, which is `Int.tdiv`.
* `HashMap<i64, i64>` is modelled as an association list with unique keys:
  `insert` overwrites the value at an existing key (or appends), `get`
  finds the first entry for the key.
* A Rust method `fn f(&mut self, ..) -> Result<(), ()>` is modelled as a
  function returning `Player × Bool`: the post-state of the receiver and
  whether the call returned `Ok(())`.  An early `return Err(())` in the
  source leaves the receiver untouched, hence returns the input state.
* The random draw inside `Stock::vary` (`gen_range(-variation..=variation)`)
  is passed in explicitly as an integer argument.
-/

/-- `HashMap::get` on the association-list model: the value stored at key
`k`, if any. -/
def mapGet (k : Int) : List (Int × Int) → Option Int
  | [] => none
  | kv :: rest => if kv.1 = k then some kv.2 else mapGet k rest

/-- `HashMap::insert` on the association-list model: overwrite the entry at
key `k` when present, otherwise append a new entry. -/
def mapInsert (k v : Int) : List (Int × Int) → List (Int × Int)
  | [] => [(k, v)]
  | kv :: rest => if kv.1 = k then (k, v) :: rest else kv :: mapInsert k v rest

/-- `Stock` from `src/lib.rs`: `direction` is the momentum term of the
damped random walk. -/
structure Stock where
  direction : Int
  id : Int
  initial_value : Int
  name : String
  value : Int
  variation : Int
deriving DecidableEq

/-- `Stock::new(id, name, value, variation)`. -/
def Stock.new (id : Int) (name : String) (value : Int) (variation : Int) : Stock :=
  { direction := 0, id := id, initial_value := value, name := name,
    value := value, variation := variation }

/-- `Stock::vary`, with the draw of `gen_range(-variation..=variation)`
passed in as `random`.  `((x * 3) / 5)` on `i64` is `Int.tdiv`. -/
def Stock.vary (s : Stock) (random : Int) : Stock :=
  let direction := (s.direction * 3).tdiv 5 + random
  { s with direction := direction, value := s.value + direction }

/-- `Stock::reset`. -/
def Stock.reset (s : Stock) : Stock :=
  { s with value := s.initial_value, direction := 0 }

/-- `Player` from `src/lib.rs`. -/
structure Player where
  balance : Int
  income : Int
  initial_income : Int
  stock_balances : List (Int × Int)
deriving DecidableEq

/-- `Player::new(balance, income)`. -/
def Player.new (balance : Int) (income : Int) : Player :=
  { balance := balance, income := income, initial_income := income,
    stock_balances := [] }

/-- `Player::stock_balance`: owned share count for the stock's id, 0 when
the map has no entry. -/
def Player.stock_balance (p : Player) (s : Stock) : Int :=
  match mapGet s.id p.stock_balances with
  | some b => b
  | none => 0

/-- `Player::buy_stock`.  Returns the post-state and whether it returned
`Ok(())`; the `Err` path returns before any mutation. -/
def Player.buy_stock (p : Player) (s : Stock) (amount : Int) : Player × Bool :=
  let cost := s.value * amount
  if p.balance < cost then (p, false)
  else
    let stock_balance := p.stock_balance s
    ({ p with balance := p.balance - cost,
              stock_balances := mapInsert s.id (stock_balance + amount) p.stock_balances },
     true)

/-- `Player::sell_stock`. -/
def Player.sell_stock (p : Player) (s : Stock) (amount : Int) : Player × Bool :=
  let bal := p.stock_balance s
  if bal < amount then (p, false)
  else
    ({ p with stock_balances := mapInsert s.id (bal - amount) p.stock_balances,
              balance := p.balance + s.value * amount },
     true)

/-- `Player::reset_stock`. -/
def Player.reset_stock (p : Player) (s : Stock) : Player :=
  { p with stock_balances := mapInsert s.id 0 p.stock_balances }

/-- `Player::collect_income`. -/
def Player.collect_income (p : Player) : Player :=
  { p with balance := p.balance + p.income }

/-- `Player::increase_income` as written in `src/lib.rs`: the cost is
`initial_income * 10`, computed from the player itself; the function takes
no cost argument (the caller in `src/main.rs` passes
`game.income_upgrade_cost`, which this signature does not accept). -/
def Player.increase_income (p : Player) : Player × Bool :=
  let cost := p.initial_income * 10
  if cost > p.balance then (p, false)
  else
    ({ p with income := p.income + p.initial_income, balance := p.balance - cost },
     true)

/-- `Player::net_worth`: balance plus, over the given stocks, value times
held share count. -/
def Player.net_worth (p : Player) (stocks : List Stock) : Int :=
  stocks.foldl (fun result s => result + s.value * p.stock_balance s) p.balance

/-- `Player::withdraw`. -/
def Player.withdraw (p : Player) (amount : Int) : Player × Bool :=
  if p.balance < amount then (p, false)
  else ({ p with balance := p.balance - amount }, true)

/-- `Player::deposit`. -/
def Player.deposit (p : Player) (amount : Int) : Player :=
  { p with balance := p.balance + amount }

/-- Non-negativity of a player's ledger: the balance and every stored share
count are `≥ 0`. -/
def Player.ledgerNonneg (p : Player) : Prop :=
  0 ≤ p.balance ∧ ∀ kv ∈ p.stock_balances, 0 ≤ kv.2

instance (p : Player) : Decidable p.ledgerNonneg := by
  unfold Player.ledgerNonneg; infer_instance

/-- `Game` from `src/save.rs`: the serialized aggregate. -/
structure Game where
  stocks : List Stock
  player : Player
  goal : Int
  add_stock_cost : Int
  initial_income : Int
  income_upgrade_cost : Int
deriving DecidableEq

/-- A ledger operation of `Player`, for reasoning about operation
sequences. -/
inductive Op where
  | buy (s : Stock) (amount : Int)
  | sell (s : Stock) (amount : Int)
  | resetStock (s : Stock)
  | collect
  | upgradeIncome
  | withdrawOp (amount : Int)
  | depositOp (amount : Int)

/-- The post-state of one ledger operation (a failed operation leaves the
player unchanged, as in the source). -/
def applyOp (p : Player) : Op → Player
  | .buy s a => (p.buy_stock s a).1
  | .sell s a => (p.sell_stock s a).1
  | .resetStock s => p.reset_stock s
  | .collect => p.collect_income
  | .upgradeIncome => p.increase_income.1
  | .withdrawOp a => (p.withdraw a).1
  | .depositOp a => p.deposit a

/-- Run a sequence of ledger operations, counting the `increase_income`
calls that succeeded. -/
def runOps : Player → List Op → Player × Nat
  | p, [] => (p, 0)
  | p, op :: ops =>
    let k := match op with
      | .upgradeIncome => if p.increase_income.2 then 1 else 0
      | _ => 0
    let r := runOps (applyOp p op) ops
    (r.1, k + r.2)

/-! ## The session loop of `run_game` (`src/main.rs`)

The console I/O is modelled by injecting the player's menu choices as data:
a turn is a list of in-turn actions followed by either the End-Turn or the
(confirmed) Quit choice, and the per-stock random draws of the variation
step are a function from the stock's position to the drawn integer.  The
loop emits an event for each step the source performs, so that the order
of the side-effecting phases within an iteration can be stated. -/

/-- One in-turn menu action of `run_game`.  A `none` choice models
cancelling the stock-selection menu; the unconfirmed variants of the
confirmation prompts are the `false` cases. -/
inductive MenuAction where
  | buyStocks (choice : Option (Nat × Int))
  | sellStocks (choice : Option (Nat × Int))
  | increaseIncome (confirm : Bool)
  | addStock (confirm : Bool) (name : String) (value : Int) (variation : Int)
  | printBreakdown

/-- How the inner menu loop of a turn ends: the End-Turn choice or a
confirmed Quit. -/
inductive TurnEnd where
  | endTurn
  | quitGame
deriving DecidableEq

/-- The injected inputs of one iteration of the session loop: the in-turn
actions, how the inner loop ends, and the random draw fed to `vary` for
the stock at each position. -/
structure TurnInput where
  actions : List MenuAction
  ending : TurnEnd
  draws : Nat → Int

/-- The observable steps of an iteration of the session loop. -/
inductive Event where
  | save
  | bankruptcyCheck
  | winBreak
  | act
  | endTurnCollect
  | varyStep
deriving DecidableEq

/-- The bankruptcy pass at the top of each iteration: every stock whose
value is `≤ 0` is reset and the player's position in it wiped. -/
def bankruptcyPass : List Stock → Player → List Stock × Player
  | [], p => ([], p)
  | s :: rest, p =>
    if s.value ≤ 0 then
      let s' := s.reset
      let p' := p.reset_stock s'
      let r := bankruptcyPass rest p'
      (s' :: r.1, r.2)
    else
      let r := bankruptcyPass rest p
      (s :: r.1, r.2)

/-- The game state after the bankruptcy pass of an iteration. -/
def afterBankruptcy (g : Game) : Game :=
  let r := bankruptcyPass g.stocks g.player
  { g with stocks := r.1, player := r.2 }

/-- Dispatch of one in-turn menu action, as in the `match` of `run_game`.
`increase_income` is the `src/lib.rs` method, which takes no cost argument
(see `Player.increase_income`). -/
def applyAction (g : Game) : MenuAction → Game
  | .buyStocks none => g
  | .buyStocks (some c) =>
    match g.stocks.get? c.1 with
    | some s => { g with player := (g.player.buy_stock s c.2).1 }
    | none => g
  | .sellStocks none => g
  | .sellStocks (some c) =>
    match g.stocks.get? c.1 with
    | some s => { g with player := (g.player.sell_stock s c.2).1 }
    | none => g
  | .increaseIncome confirm =>
    if confirm then { g with player := g.player.increase_income.1 } else g
  | .addStock confirm name value variation =>
    if confirm then
      let r := g.player.withdraw g.add_stock_cost
      if r.2 then
        { g with player := r.1,
                 stocks := g.stocks ++ [Stock.new (g.stocks.length : Int) name value variation] }
      else { g with player := r.1 }
    else g
  | .printBreakdown => g

/-- The inner menu loop of a turn: apply each action, then either collect
income and continue the outer loop (End turn) or stop it (Quit game).
Returns the state, the `run_game` flag and the emitted events. -/
def actionLoop (g : Game) : List MenuAction → TurnEnd → Game × Bool × List Event
  | a :: rest, e =>
    let r := actionLoop (applyAction g a) rest e
    (r.1, r.2.1, Event.act :: r.2.2)
  | [], .endTurn => ({ g with player := g.player.collect_income }, true, [Event.endTurnCollect])
  | [], .quitGame => (g, false, [])

/-- The variation step at the bottom of each iteration: `vary` applied to
every stock, with the draw for the stock at position `i` being `draws i`. -/
def varyAll (stocks : List Stock) (draws : Nat → Int) : List Stock :=
  stocks.mapIdx fun i s => s.vary (draws i)

/-- One iteration of the `while run_game` loop of `run_game`: save the
game, run the bankruptcy pass, break on the win condition, otherwise run
the inner menu loop and then vary every stock. -/
def iteration (g : Game) (t : TurnInput) : Game × Bool × List Event :=
  let g1 := afterBankruptcy g
  if g1.player.net_worth g1.stocks > g1.goal then
    (g1, false, [Event.save, Event.bankruptcyCheck, Event.winBreak])
  else
    let r := actionLoop g1 t.actions t.ending
    ({ r.1 with stocks := varyAll r.1.stocks t.draws }, r.2.1,
     [Event.save, Event.bankruptcyCheck] ++ r.2.2 ++ [Event.varyStep])

/-- The session loop over a scripted list of turn inputs (the trace is
truncated when the script runs out). -/
def runGame (g : Game) : List TurnInput → Game × List Event
  | [] => (g, [])
  | t :: ts =>
    let r := iteration g t
    if r.2.1 then
      let r' := runGame r.1 ts
      (r'.1, r.2.2 ++ r'.2)
    else (r.1, r.2.2)

/-! ## The save-file contract (`src/save.rs`)

`save` writes `serde_json::to_string(game)` and `from_path` reads it back
with `serde_json::from_str`.  The serde code itself is generated by the
derives and lives outside `src/`, so the encoding is modelled from the
spec, at the level of a JSON value tree. -/

/-- A JSON value, the target of the modelled encoding. -/
inductive Json where
  | num (n : Int)
  | str (s : String)
  | arr (xs : List Json)
  | obj (fields : List (String × Json))

/-- The decimal digit `d` as a character (`0`–`9`). -/
def digitChar (d : Nat) : Char := Char.ofNat (48 + d)

/-- The inverse of `digitChar` on `0`–`9`. -/
def charDigit (c : Char) : Option Nat :=
  if 48 ≤ c.toNat ∧ c.toNat ≤ 57 then some (c.toNat - 48) else none

/-- Decimal rendering of a natural number. -/
def natStr (n : Nat) : String :=
  if n = 0 then "0" else String.mk (((Nat.digits 10 n).reverse).map digitChar)

/-- Parse a list of digit characters. -/
def charsDigits : List Char → Option (List Nat)
  | [] => some []
  | c :: cs =>
    match charDigit c, charsDigits cs with
    | some d, some ds => some (d :: ds)
    | _, _ => none

/-- Parse a most-significant-first digit string. -/
def charsNat (cs : List Char) : Option Nat :=
  (charsDigits cs).map fun ds => Nat.ofDigits 10 ds.reverse

/-- Modelled from the spec: serde serializes the integer keys of the
shares map "as-string"; this is the decimal rendering of an `i64`. -/
def intStr (i : Int) : String :=
  if i < 0 then "-" ++ natStr i.natAbs else natStr i.natAbs

/-- Parse the decimal rendering of an `i64` back to the integer. -/
def strInt (s : String) : Option Int :=
  match s.data with
  | [] => none
  | c :: cs =>
    if c = '-' then
      match charsNat cs with
      | some n => some (-(n : Int))
      | none => none
    else
      match charsNat (c :: cs) with
      | some n => some ((n : Int))
      | none => none

/-- Modelled from the spec: the serde encoding of a `Stock` (the JSON
object holding its fields, the momentum field included). -/
def Stock.toJson (s : Stock) : Json :=
  Json.obj [("direction", Json.num s.direction), ("id", Json.num s.id),
            ("initial_value", Json.num s.initial_value), ("name", Json.str s.name),
            ("value", Json.num s.value), ("variation", Json.num s.variation)]

/-- Modelled from the spec: the shares mapping keyed by stock id as
string. -/
def sharesToJson (shares : List (Int × Int)) : Json :=
  Json.obj (shares.map fun kv => (intStr kv.1, Json.num kv.2))

/-- Modelled from the spec: the serde encoding of a `Player`. -/
def Player.toJson (p : Player) : Json :=
  Json.obj [("balance", Json.num p.balance), ("income", Json.num p.income),
            ("initial_income", Json.num p.initial_income),
            ("stock_balances", sharesToJson p.stock_balances)]

/-- Modelled from the spec: `serde_json::to_string(game)` — the JSON
object of the full `Game` aggregate written by `save`. -/
def Game.toJson (g : Game) : Json :=
  Json.obj [("stocks", Json.arr (g.stocks.map Stock.toJson)),
            ("player", g.player.toJson), ("goal", Json.num g.goal),
            ("add_stock_cost", Json.num g.add_stock_cost),
            ("initial_income", Json.num g.initial_income),
            ("income_upgrade_cost", Json.num g.income_upgrade_cost)]

/-- Look up a required field of a JSON object. -/
def getField : List (String × Json) → String → Except String Json
  | [], k => Except.error ("missing field " ++ k)
  | f :: rest, k => if f.1 = k then Except.ok f.2 else getField rest k

/-- A JSON value that must be a number. -/
def Json.asNum : Json → Except String Int
  | .num n => Except.ok n
  | _ => Except.error "expected a number"

/-- A JSON value that must be a string. -/
def Json.asStr : Json → Except String String
  | .str s => Except.ok s
  | _ => Except.error "expected a string"

/-- A JSON value that must be an array. -/
def Json.asArr : Json → Except String (List Json)
  | .arr xs => Except.ok xs
  | _ => Except.error "expected an array"

/-- A JSON value that must be an object. -/
def Json.asObj : Json → Except String (List (String × Json))
  | .obj fs => Except.ok fs
  | _ => Except.error "expected an object"

/-- Modelled from the spec: decode one `Stock` from its JSON object. -/
def Stock.fromJson (j : Json) : Except String Stock := do
  let fields ← j.asObj
  let direction ← (← getField fields "direction").asNum
  let id ← (← getField fields "id").asNum
  let initial_value ← (← getField fields "initial_value").asNum
  let name ← (← getField fields "name").asStr
  let value ← (← getField fields "value").asNum
  let variation ← (← getField fields "variation").asNum
  return { direction := direction, id := id, initial_value := initial_value,
           name := name, value := value, variation := variation }

/-- Decode the list of stocks. -/
def decodeStocks : List Json → Except String (List Stock)
  | [] => Except.ok []
  | j :: js => do
    let s ← Stock.fromJson j
    let rest ← decodeStocks js
    return s :: rest

/-- Decode the shares mapping, parsing each key back to a stock id. -/
def decodeShares : List (String × Json) → Except String (List (Int × Int))
  | [] => Except.ok []
  | f :: rest => do
    let k ← match strInt f.1 with
      | some i => Except.ok i
      | none => Except.error "bad shares key"
    let v ← f.2.asNum
    let tail ← decodeShares rest
    return (k, v) :: tail

/-- Modelled from the spec: decode one `Player` from its JSON object. -/
def Player.fromJson (j : Json) : Except String Player := do
  let fields ← j.asObj
  let balance ← (← getField fields "balance").asNum
  let income ← (← getField fields "income").asNum
  let initial_income ← (← getField fields "initial_income").asNum
  let shares ← decodeShares (← (← getField fields "stock_balances").asObj)
  return { balance := balance, income := income, initial_income := initial_income,
           stock_balances := shares }

/-- Modelled from the spec: `serde_json::from_str` composed with the field
decoding of `Game` — what `from_path` does to the bytes it read. -/
def Game.fromJson (j : Json) : Except String Game := do
  let fields ← j.asObj
  let stocks ← decodeStocks (← (← getField fields "stocks").asArr)
  let player ← Player.fromJson (← getField fields "player")
  let goal ← (← getField fields "goal").asNum
  let add_stock_cost ← (← getField fields "add_stock_cost").asNum
  let initial_income ← (← getField fields "initial_income").asNum
  let income_upgrade_cost ← (← getField fields "income_upgrade_cost").asNum
  return { stocks := stocks, player := player, goal := goal,
           add_stock_cost := add_stock_cost, initial_income := initial_income,
           income_upgrade_cost := income_upgrade_cost }

theorem mapGet_mapInsert_self (k v : Int) (l : List (Int × Int)) :
    mapGet k (mapInsert k v l) = some v := by
  induction l with
  | nil => simp [mapGet, mapInsert]
  | cons kv rest ih =>
    by_cases h : kv.1 = k
    · simp [mapGet, mapInsert, h]
    · simp [mapGet, mapInsert, h, ih]

theorem mapGet_mapInsert_ne (k k' v : Int) (l : List (Int × Int)) (h : k' ≠ k) :
    mapGet k' (mapInsert k v l) = mapGet k' l := by
  have h' : ¬ k = k' := fun e => h e.symm
  induction l with
  | nil => simp [mapGet, mapInsert, h']
  | cons kv rest ih =>
    by_cases hk : kv.1 = k
    · simp [mapGet, mapInsert, hk, h']
    · by_cases hk' : kv.1 = k'
      · simp [mapGet, mapInsert, hk, hk', h]
      · simp [mapGet, mapInsert, hk, hk', ih]

theorem mem_mapInsert (k v : Int) (l : List (Int × Int)) (kv : Int × Int)
    (h : kv ∈ mapInsert k v l) : kv = (k, v) ∨ kv ∈ l := by
  induction l with
  | nil => simpa [mapInsert] using h
  | cons kv' rest ih =>
    by_cases hk : kv'.1 = k
    · simp only [mapInsert, hk, if_true, List.mem_cons] at h
      rcases h with h | h
      · exact Or.inl h
      · exact Or.inr (List.mem_cons_of_mem _ h)
    · simp only [mapInsert, hk, if_false, List.mem_cons] at h
      rcases h with h | h
      · exact Or.inr (by simp [h])
      · rcases ih h with h' | h'
        · exact Or.inl h'
        · exact Or.inr (List.mem_cons_of_mem _ h')

theorem mapGet_mem (k : Int) (l : List (Int × Int)) (b : Int)
    (h : mapGet k l = some b) : ∃ kv ∈ l, kv.2 = b := by
  induction l with
  | nil => simp [mapGet] at h
  | cons kv rest ih =>
    by_cases hk : kv.1 = k
    · refine ⟨kv, List.mem_cons_self _ _, ?_⟩
      simp only [mapGet, hk, if_true, Option.some.injEq] at h
      exact h
    · simp only [mapGet, hk, if_false] at h
      obtain ⟨kv', hkv', hb⟩ := ih h
      exact ⟨kv', List.mem_cons_of_mem _ hkv', hb⟩

theorem stock_balance_nonneg (p : Player) (s : Stock)
    (h : ∀ kv ∈ p.stock_balances, 0 ≤ kv.2) : 0 ≤ p.stock_balance s := by
  unfold Player.stock_balance
  cases hg : mapGet s.id p.stock_balances with
  | none => simp
  | some b =>
    obtain ⟨kv, hkv, hb⟩ := mapGet_mem _ _ _ hg
    simpa [hb] using h kv hkv

theorem foldl_add_eq (f : Stock → Int) (l : List Stock) (init : Int) :
    l.foldl (fun r s => r + f s) init = init + (l.map f).sum := by
  induction l generalizing init with
  | nil => simp
  | cons s rest ih =>
    simp only [List.foldl_cons, List.map_cons, List.sum_cons, ih]
    ring

theorem buy_stock_success_eq (p : Player) (s : Stock) (amount : Int)
    (h : ¬ p.balance < s.value * amount) :
    p.buy_stock s amount
      = ({ p with balance := p.balance - s.value * amount,
                  stock_balances :=
                    mapInsert s.id (p.stock_balance s + amount) p.stock_balances },
         true) := by
  simp [Player.buy_stock, h]

theorem buy_stock_sb_self (p : Player) (s : Stock) (amount : Int)
    (h : ¬ p.balance < s.value * amount) :
    (p.buy_stock s amount).1.stock_balance s = p.stock_balance s + amount := by
  rw [buy_stock_success_eq p s amount h]
  simp [Player.stock_balance, mapGet_mapInsert_self]

theorem sell_stock_success_eq (p : Player) (s : Stock) (amount : Int)
    (h : ¬ p.stock_balance s < amount) :
    p.sell_stock s amount
      = ({ p with stock_balances :=
                    mapInsert s.id (p.stock_balance s - amount) p.stock_balances,
                  balance := p.balance + s.value * amount },
         true) := by
  simp [Player.sell_stock, h]

theorem sell_stock_sb_self (p : Player) (s : Stock) (amount : Int)
    (h : ¬ p.stock_balance s < amount) :
    (p.sell_stock s amount).1.stock_balance s = p.stock_balance s - amount := by
  rw [sell_stock_success_eq p s amount h]
  simp [Player.stock_balance, mapGet_mapInsert_self]

/-- C2: `buy_stock` fails exactly when `balance < stock.value * amount`
(strict, so an exact-balance purchase succeeds); failure leaves the player
unchanged; success decreases the balance by the cost and increases the
share count for the stock's id by `amount`, touching no other entry. -/
theorem buy_stock_correct (p : Player) (s : Stock) (amount : Int) :
    ((p.buy_stock s amount).2 = false ↔ p.balance < s.value * amount)
    ∧ ((p.buy_stock s amount).2 = false → (p.buy_stock s amount).1 = p)
    ∧ ((p.buy_stock s amount).2 = true →
        (p.buy_stock s amount).1.balance = p.balance - s.value * amount
        ∧ (p.buy_stock s amount).1.stock_balance s = p.stock_balance s + amount
        ∧ ∀ k, k ≠ s.id →
            mapGet k (p.buy_stock s amount).1.stock_balances
              = mapGet k p.stock_balances) := by
  by_cases h : p.balance < s.value * amount
  · simp [Player.buy_stock, h]
  · refine ⟨by simp [Player.buy_stock, h], by simp [Player.buy_stock, h],
      fun _ => ⟨?_, buy_stock_sb_self p s amount h, fun k hk => ?_⟩⟩
    · rw [buy_stock_success_eq p s amount h]
    · rw [buy_stock_success_eq p s amount h]
      exact mapGet_mapInsert_ne _ _ _ _ hk

/-- C3: `sell_stock` fails exactly when the held share count is less than
`amount`; failure leaves the player unchanged; success decreases the share
count for the stock's id by `amount` and increases the balance by
`stock.value * amount`, touching no other entry. -/
theorem sell_stock_correct (p : Player) (s : Stock) (amount : Int) :
    ((p.sell_stock s amount).2 = false ↔ p.stock_balance s < amount)
    ∧ ((p.sell_stock s amount).2 = false → (p.sell_stock s amount).1 = p)
    ∧ ((p.sell_stock s amount).2 = true →
        (p.sell_stock s amount).1.stock_balance s = p.stock_balance s - amount
        ∧ (p.sell_stock s amount).1.balance = p.balance + s.value * amount
        ∧ ∀ k, k ≠ s.id →
            mapGet k (p.sell_stock s amount).1.stock_balances
              = mapGet k p.stock_balances) := by
  by_cases h : p.stock_balance s < amount
  · simp [Player.sell_stock, h]
  · refine ⟨by simp [Player.sell_stock, h], by simp [Player.sell_stock, h],
      fun _ => ⟨sell_stock_sb_self p s amount h, ?_, fun k hk => ?_⟩⟩
    · rw [sell_stock_success_eq p s amount h]
    · rw [sell_stock_success_eq p s amount h]
      exact mapGet_mapInsert_ne _ _ _ _ hk

/-- C4: the `increase_income` of `src/lib.rs` charges the fixed cost
`initial_income * 10` and ignores the configured upgrade cost its caller
passes.  With a configured cost of 5000, a balance of 7000 and an initial
income of 1000, the claim says the upgrade succeeds (7000 ≥ 5000), but
the call fails and leaves the player unchanged (10 * 1000 > 7000). -/
theorem increase_income_ignores_configured_cost :
    (Player.new 7000 1000).increase_income.2 = false
    ∧ (Player.new 7000 1000).increase_income.1 = Player.new 7000 1000
    ∧ (5000 : Int) ≤ (Player.new 7000 1000).balance := by decide

/-- C5: one call to `vary` with draw `r` in `[-variation, variation]` sets
the momentum to `(old * 3) / 5 + r` with truncating integer division, adds
exactly the new momentum to the value, and changes no other field. -/
theorem vary_correct (s : Stock) (r : Int)
    (h1 : -s.variation ≤ r) (h2 : r ≤ s.variation) :
    (s.vary r).direction = (s.direction * 3).tdiv 5 + r
    ∧ (s.vary r).value = s.value + (s.vary r).direction
    ∧ (s.vary r).id = s.id
    ∧ (s.vary r).name = s.name
    ∧ (s.vary r).initial_value = s.initial_value
    ∧ (s.vary r).variation = s.variation := by
  simp [Stock.vary]

theorem vary_correct_witness :
    ((Stock.new 0 "A" 50 10).vary (-5)).direction
      = ((Stock.new 0 "A" 50 10).direction * 3).tdiv 5 + (-5)
    ∧ ((Stock.new 0 "A" 50 10).vary (-5)).value
      = (Stock.new 0 "A" 50 10).value + ((Stock.new 0 "A" 50 10).vary (-5)).direction :=
  ⟨(vary_correct (Stock.new 0 "A" 50 10) (-5) (by decide) (by decide)).1,
   (vary_correct (Stock.new 0 "A" 50 10) (-5) (by decide) (by decide)).2.1⟩

/-- C8: `net_worth` is the balance plus the sum over the listed stocks of
value times held share count; on the empty list it is the balance; a stock
id never traded counts as zero. -/
theorem net_worth_correct (p : Player) (stocks : List Stock) (s : Stock) :
    p.net_worth stocks
      = p.balance + (stocks.map fun s => s.value * p.stock_balance s).sum
    ∧ p.net_worth [] = p.balance
    ∧ (mapGet s.id p.stock_balances = none → p.stock_balance s = 0) := by
  refine ⟨foldl_add_eq _ _ _ |>.trans rfl, rfl, fun h => ?_⟩
  simp [Player.stock_balance, h]

/-- C1 (amended): for a player whose balance, income and stored share
counts are non-negative, each ledger operation applied with a non-negative
amount and a stock of non-negative value keeps the balance and every share
count non-negative, and a failing operation leaves the player unchanged. -/
theorem ledger_nonneg_invariant (p : Player) (s : Stock) (amount : Int)
    (hp : p.ledgerNonneg) (hinc : 0 ≤ p.income) (hv : 0 ≤ s.value)
    (ha : 0 ≤ amount) :
    (p.buy_stock s amount).1.ledgerNonneg
    ∧ (p.sell_stock s amount).1.ledgerNonneg
    ∧ (p.reset_stock s).ledgerNonneg
    ∧ p.collect_income.ledgerNonneg
    ∧ p.increase_income.1.ledgerNonneg
    ∧ (p.withdraw amount).1.ledgerNonneg
    ∧ (p.deposit amount).ledgerNonneg
    ∧ ((p.buy_stock s amount).2 = false → (p.buy_stock s amount).1 = p)
    ∧ ((p.sell_stock s amount).2 = false → (p.sell_stock s amount).1 = p)
    ∧ (p.increase_income.2 = false → p.increase_income.1 = p)
    ∧ ((p.withdraw amount).2 = false → (p.withdraw amount).1 = p) := by
  obtain ⟨hb, hs⟩ := hp
  have hsb : 0 ≤ p.stock_balance s := stock_balance_nonneg p s hs
  refine ⟨?_, ?_, ?_, ?_, ?_, ?_, ?_, ?_, ?_, ?_, ?_⟩
  · dsimp only [Player.buy_stock]
    split_ifs with h
    · exact ⟨hb, hs⟩
    · refine ⟨by simpa using by linarith [not_lt.mp h], fun kv hkv => ?_⟩
      rcases mem_mapInsert _ _ _ _ hkv with he | hm
      · rw [he]; exact add_nonneg hsb ha
      · exact hs kv hm
  · dsimp only [Player.sell_stock]
    split_ifs with h
    · exact ⟨hb, hs⟩
    · refine ⟨by simpa using add_nonneg hb (mul_nonneg hv ha), fun kv hkv => ?_⟩
      rcases mem_mapInsert _ _ _ _ hkv with he | hm
      · rw [he]; simpa using not_lt.mp h
      · exact hs kv hm
  · refine ⟨hb, fun kv hkv => ?_⟩
    rcases mem_mapInsert _ _ _ _ hkv with he | hm
    · rw [he]
    · exact hs kv hm
  · exact ⟨by simpa [Player.collect_income] using add_nonneg hb hinc, hs⟩
  · dsimp only [Player.increase_income]
    split_ifs with h
    · exact ⟨hb, hs⟩
    · exact ⟨by simpa using by linarith [not_lt.mp h], hs⟩
  · dsimp only [Player.withdraw]
    split_ifs with h
    · exact ⟨hb, hs⟩
    · exact ⟨by simpa using by linarith [not_lt.mp h], hs⟩
  · exact ⟨by simpa [Player.deposit] using add_nonneg hb ha, hs⟩
  · dsimp only [Player.buy_stock]
    split_ifs <;> simp
  · dsimp only [Player.sell_stock]
    split_ifs <;> simp
  · dsimp only [Player.increase_income]
    split_ifs <;> simp
  · dsimp only [Player.withdraw]
    split_ifs <;> simp

theorem ledger_nonneg_invariant_witness :
    ((Player.new 5 1).buy_stock (Stock.new 0 "A" 2 1) 2).1.ledgerNonneg
    ∧ ((Player.new 5 1).deposit 2).ledgerNonneg :=
  ⟨(ledger_nonneg_invariant (Player.new 5 1) (Stock.new 0 "A" 2 1) 2
      (by decide) (by decide) (by decide) (by decide)).1,
   (ledger_nonneg_invariant (Player.new 5 1) (Stock.new 0 "A" 2 1) 2
      (by decide) (by decide) (by decide) (by decide)).2.2.2.2.2.2.1⟩

/-- C1, as stated, is false: a player with non-negative balance and share
counts can reach a negative share count (a `buy_stock` of `-1` succeeds
and stores `-1` shares) and a negative balance (a `deposit` of `-5`),
with no operation failing. -/
theorem ledger_nonneg_counterexample :
    (Player.new 0 0).ledgerNonneg
    ∧ ((Player.new 0 0).buy_stock (Stock.new 0 "A" 1 1) (-1)).2 = true
    ∧ ((Player.new 0 0).buy_stock (Stock.new 0 "A" 1 1) (-1)).1.stock_balance
        (Stock.new 0 "A" 1 1) = -1
    ∧ ((Player.new 0 0).deposit (-5)).balance = -5 := by decide

/-- C7 (amended): when the held share count for the stock is non-negative
and the balance covers the cost, buying then selling the same amount at an
unchanged price succeeds twice and restores the balance and that stock's
share count. -/
theorem buy_sell_roundtrip (p : Player) (s : Stock) (amount : Int)
    (hheld : 0 ≤ p.stock_balance s)
    (hbal : s.value * amount ≤ p.balance) :
    (p.buy_stock s amount).2 = true
    ∧ ((p.buy_stock s amount).1.sell_stock s amount).2 = true
    ∧ ((p.buy_stock s amount).1.sell_stock s amount).1.balance = p.balance
    ∧ ((p.buy_stock s amount).1.sell_stock s amount).1.stock_balance s
        = p.stock_balance s := by
  have h1 : ¬ p.balance < s.value * amount := not_lt.mpr hbal
  have hb1 : (p.buy_stock s amount).1.stock_balance s = p.stock_balance s + amount :=
    buy_stock_sb_self p s amount h1
  have h2 : ¬ (p.buy_stock s amount).1.stock_balance s < amount := by
    rw [hb1]; linarith
  refine ⟨by simp [Player.buy_stock, h1],
    by rw [sell_stock_success_eq _ s amount h2], ?_, ?_⟩
  · rw [sell_stock_success_eq _ s amount h2]
    rw [buy_stock_success_eq p s amount h1]
    ring
  · rw [sell_stock_sb_self _ s amount h2, hb1]
    ring

theorem buy_sell_roundtrip_witness :
    ((Player.new 1000 0).buy_stock (Stock.new 0 "A" 50 10) 10).2 = true
    ∧ (((Player.new 1000 0).buy_stock (Stock.new 0 "A" 50 10) 10).1.sell_stock
        (Stock.new 0 "A" 50 10) 10).1.balance = (Player.new 1000 0).balance :=
  ⟨(buy_sell_roundtrip (Player.new 1000 0) (Stock.new 0 "A" 50 10) 10
      (by decide) (by decide)).1,
   (buy_sell_roundtrip (Player.new 1000 0) (Stock.new 0 "A" 50 10) 10
      (by decide) (by decide)).2.2.1⟩

/-- C7, as stated, is false: with a (reachable) negative held share count,
the hypothesis `balance ≥ value * amount` holds but the sell after the buy
fails. -/
theorem buy_sell_roundtrip_counterexample :
    (Stock.new 0 "A" 1 1).value * 3
      ≤ (Player.mk 100 0 0 [(0, -1)]).balance
    ∧ (((Player.mk 100 0 0 [(0, -1)]).buy_stock (Stock.new 0 "A" 1 1) 3).1.sell_stock
        (Stock.new 0 "A" 1 1) 3).2 = false := by decide

theorem applyOp_initial_income (p : Player) (op : Op) :
    (applyOp p op).initial_income = p.initial_income := by
  cases op <;>
    dsimp only [applyOp, Player.buy_stock, Player.sell_stock, Player.reset_stock,
      Player.collect_income, Player.increase_income, Player.withdraw, Player.deposit] <;>
    (try split_ifs) <;> rfl

theorem runOps_invariant (ops : List Op) (p : Player) :
    (runOps p ops).1.initial_income = p.initial_income
    ∧ (runOps p ops).1.income = p.income + (runOps p ops).2 * p.initial_income := by
  induction ops generalizing p with
  | nil => simp [runOps]
  | cons op rest ih =>
    have hI := applyOp_initial_income p op
    have h := ih (applyOp p op)
    cases op with
    | upgradeIncome =>
      by_cases hc : p.initial_income * 10 > p.balance
      · have he : p.increase_income = (p, false) := by
          simp [Player.increase_income, hc]
        simp only [runOps, applyOp, he] at h ⊢
        refine ⟨h.1, ?_⟩
        rw [h.2]
        push_cast
        ring
      · have he : p.increase_income
            = ({ p with income := p.income + p.initial_income,
                        balance := p.balance - p.initial_income * 10 }, true) := by
          simp [Player.increase_income, hc]
        simp only [runOps, applyOp, he] at h ⊢
        refine ⟨h.1, ?_⟩
        rw [h.2]
        push_cast
        ring
    | buy s a =>
      have hinc : (applyOp p (Op.buy s a)).income = p.income := by
        dsimp only [applyOp, Player.buy_stock]
        split_ifs <;> rfl
      simp only [runOps] at h ⊢
      exact ⟨h.1.trans hI, by rw [h.2, hinc, hI]; push_cast; ring⟩
    | sell s a =>
      have hinc : (applyOp p (Op.sell s a)).income = p.income := by
        dsimp only [applyOp, Player.sell_stock]
        split_ifs <;> rfl
      simp only [runOps] at h ⊢
      exact ⟨h.1.trans hI, by rw [h.2, hinc, hI]; push_cast; ring⟩
    | resetStock s =>
      have hinc : (applyOp p (Op.resetStock s)).income = p.income := rfl
      simp only [runOps] at h ⊢
      exact ⟨h.1.trans hI, by rw [h.2, hinc, hI]; push_cast; ring⟩
    | collect =>
      have hinc : (applyOp p Op.collect).income = p.income := rfl
      simp only [runOps] at h ⊢
      exact ⟨h.1.trans hI, by rw [h.2, hinc, hI]; push_cast; ring⟩
    | withdrawOp a =>
      have hinc : (applyOp p (Op.withdrawOp a)).income = p.income := by
        dsimp only [applyOp, Player.withdraw]
        split_ifs <;> rfl
      simp only [runOps] at h ⊢
      exact ⟨h.1.trans hI, by rw [h.2, hinc, hI]; push_cast; ring⟩
    | depositOp a =>
      have hinc : (applyOp p (Op.depositOp a)).income = p.income := rfl
      simp only [runOps] at h ⊢
      exact ⟨h.1.trans hI, by rw [h.2, hinc, hI]; push_cast; ring⟩

/-- C10: `new(balance, income)` fixes `initial_income` to `income`; no
ledger operation changes it; and after a sequence of operations in which
`k` `increase_income` calls succeeded, the income is `(k + 1)` times the
income given at construction. -/
theorem initial_income_invariant :
    (∀ b i, (Player.new b i).initial_income = i)
    ∧ (∀ p op, (applyOp p op).initial_income = p.initial_income)
    ∧ (∀ b i ops,
        (runOps (Player.new b i) ops).1.initial_income = i
        ∧ (runOps (Player.new b i) ops).1.income
            = ((runOps (Player.new b i) ops).2 + 1) * i) := by
  refine ⟨fun b i => rfl, applyOp_initial_income, fun b i ops => ?_⟩
  have h := runOps_invariant ops (Player.new b i)
  refine ⟨h.1, ?_⟩
  rw [h.2]
  show i + _ * i = _
  push_cast
  ring

theorem actionLoop_endTurn (acts : List MenuAction) (g : Game) :
    actionLoop g acts TurnEnd.endTurn
      = ({ acts.foldl applyAction g with
            player := (acts.foldl applyAction g).player.collect_income }, true,
         acts.map (fun _ => Event.act) ++ [Event.endTurnCollect]) := by
  induction acts generalizing g with
  | nil => rfl
  | cons a rest ih => simp [actionLoop, ih, List.foldl_cons]

theorem iteration_events_shape (g : Game) (t : TurnInput) :
    ∃ tail, (iteration g t).2.2 = Event.save :: Event.bankruptcyCheck :: tail := by
  dsimp only [iteration]
  split_ifs
  · exact ⟨[Event.winBreak], rfl⟩
  · exact ⟨(actionLoop (afterBankruptcy g) t.actions t.ending).2.2 ++ [Event.varyStep],
      by simp⟩

theorem runGame_cons_shape (g : Game) (t : TurnInput) (ts : List TurnInput) :
    ∃ tail, (runGame g (t :: ts)).2 = Event.save :: Event.bankruptcyCheck :: tail := by
  obtain ⟨tail, htail⟩ := iteration_events_shape g t
  simp only [runGame]
  by_cases h : (iteration g t).2.1
  · exact ⟨tail ++ (runGame (iteration g t).1 ts).2, by simp [h, htail]⟩
  · exact ⟨tail, by simp [h, htail]⟩

/-- C9: a completed turn of the session loop (one that ends with the
End-Turn action and does not hit the win break) emits the save, the
bankruptcy check, the in-turn actions, the End-Turn income collection and
then exactly one variation step, in that order; the trace of the following
turns starts with the next save and bankruptcy check, so the variation
step falls after the End-Turn action and before the next turn's
bankruptcy check. -/
theorem vary_once_per_turn (g : Game) (acts : List MenuAction) (draws : Nat → Int)
    (ts : List TurnInput)
    (hwin : ¬ (afterBankruptcy g).player.net_worth (afterBankruptcy g).stocks
        > (afterBankruptcy g).goal) :
    (runGame g (TurnInput.mk acts TurnEnd.endTurn draws :: ts)).2
      = ([Event.save, Event.bankruptcyCheck]
          ++ acts.map (fun _ => Event.act)
          ++ [Event.endTurnCollect, Event.varyStep])
        ++ (runGame (iteration g (TurnInput.mk acts TurnEnd.endTurn draws)).1 ts).2
    ∧ ([Event.save, Event.bankruptcyCheck]
        ++ acts.map (fun _ => Event.act)
        ++ [Event.endTurnCollect, Event.varyStep]).count Event.varyStep = 1
    ∧ (∀ t' ts', ts = t' :: ts' →
        ∃ tail, (runGame (iteration g (TurnInput.mk acts TurnEnd.endTurn draws)).1 ts).2
          = Event.save :: Event.bankruptcyCheck :: tail) := by
  have hiter : iteration g (TurnInput.mk acts TurnEnd.endTurn draws)
      = ({ acts.foldl applyAction (afterBankruptcy g) with
            player := ((acts.foldl applyAction (afterBankruptcy g)).player.collect_income),
            stocks := varyAll
              (acts.foldl applyAction (afterBankruptcy g)).stocks draws }, true,
         [Event.save, Event.bankruptcyCheck]
           ++ (acts.map (fun _ => Event.act) ++ [Event.endTurnCollect])
           ++ [Event.varyStep]) := by
    unfold iteration
    rw [if_neg hwin]
    rw [actionLoop_endTurn]
  refine ⟨?_, ?_, ?_⟩
  · simp only [runGame, hiter]
    simp
  · simp [List.count_append, List.count_cons, List.count_replicate]
  · intro t' ts' hts
    subst hts
    exact runGame_cons_shape _ t' ts'

theorem vary_once_per_turn_witness :
    (runGame (Game.mk [Stock.new 0 "A" 50 10] (Player.new 0 0) 1000000 15000 1000 10000)
        (TurnInput.mk [] TurnEnd.endTurn (fun _ => 0) :: [])).2
      = ([Event.save, Event.bankruptcyCheck]
          ++ ([] : List MenuAction).map (fun _ => Event.act)
          ++ [Event.endTurnCollect, Event.varyStep])
        ++ (runGame
              (iteration
                (Game.mk [Stock.new 0 "A" 50 10] (Player.new 0 0) 1000000 15000 1000 10000)
                (TurnInput.mk [] TurnEnd.endTurn (fun _ => 0))).1 []).2 :=
  (vary_once_per_turn
    (Game.mk [Stock.new 0 "A" 50 10] (Player.new 0 0) 1000000 15000 1000 10000)
    [] (fun _ => 0) [] (by decide)).1

theorem charDigit_digitChar (d : Nat) (h : d < 10) : charDigit (digitChar d) = some d := by
  interval_cases d <;> decide

theorem digitChar_ne_neg (d : Nat) (h : d < 10) : digitChar d ≠ '-' := by
  interval_cases d <;> decide

theorem charsDigits_map (l : List Nat) (h : ∀ d ∈ l, d < 10) :
    charsDigits (l.map digitChar) = some l := by
  induction l with
  | nil => rfl
  | cons d rest ih =>
    have hd := charDigit_digitChar d (h d (List.mem_cons_self _ _))
    have hrest := ih fun d' hd' => h d' (List.mem_cons_of_mem _ hd')
    simp [charsDigits, hd, hrest]

theorem charsNat_digits (n : Nat) :
    charsNat (((Nat.digits 10 n).reverse).map digitChar) = some n := by
  have hall : ∀ d ∈ (Nat.digits 10 n).reverse, d < 10 := fun d hd =>
    Nat.digits_lt_base (by norm_num) (List.mem_reverse.mp hd)
  unfold charsNat
  rw [charsDigits_map _ hall]
  simp [Nat.ofDigits_digits]

theorem natStr_parse (n : Nat) :
    ∃ c cs, (natStr n).data = c :: cs ∧ c ≠ '-' ∧ charsNat (c :: cs) = some n := by
  by_cases h : n = 0
  · subst h
    exact ⟨'0', [], rfl, by decide, by decide⟩
  · have hdata : (natStr n).data = ((Nat.digits 10 n).reverse).map digitChar := by
      simp [natStr, h]
    cases hrd : ((Nat.digits 10 n).reverse).map digitChar with
    | nil =>
      exfalso
      have hlen := congrArg List.length hrd
      simp at hlen
      exact (Nat.digits_ne_nil_iff_ne_zero.mpr h) hlen
    | cons c cs =>
      refine ⟨c, cs, by rw [hdata, hrd], ?_, ?_⟩
      · have hc : c ∈ ((Nat.digits 10 n).reverse).map digitChar := by
          rw [hrd]; exact List.mem_cons_self _ _
        simp only [List.mem_map, List.mem_reverse] at hc
        obtain ⟨d, hd, hdc⟩ := hc
        rw [← hdc]
        exact digitChar_ne_neg d (Nat.digits_lt_base (by norm_num) hd)
      · rw [← hrd]
        exact charsNat_digits n

theorem strInt_intStr (i : Int) : strInt (intStr i) = some i := by
  obtain ⟨c, cs, hd2, hne, hp⟩ := natStr_parse i.natAbs
  by_cases h : i < 0
  · have hdata : (intStr i).data = '-' :: (natStr i.natAbs).data := by
      simp only [intStr, if_pos h, String.data_append]
      rfl
    unfold strInt
    rw [hdata, hd2]
    dsimp only
    rw [if_pos rfl, ← hd2]
    rw [show charsNat (natStr i.natAbs).data = some i.natAbs from hd2 ▸ hp]
    have habs : ((i.natAbs : Int)) = -i := Int.ofNat_natAbs_of_nonpos (le_of_lt h)
    simp [habs]
  · have hdata : (intStr i).data = (natStr i.natAbs).data := by
      simp [intStr, h]
    unfold strInt
    rw [hdata, hd2]
    dsimp only
    rw [if_neg hne, hp]
    have habs : ((i.natAbs : Int)) = i := Int.natAbs_of_nonneg (not_lt.mp h)
    simp [habs]

theorem stock_fromJson_toJson (s : Stock) :
    Stock.fromJson (Stock.toJson s) = Except.ok s := rfl

theorem decodeStocks_map (l : List Stock) :
    decodeStocks (l.map Stock.toJson) = Except.ok l := by
  induction l with
  | nil => rfl
  | cons s rest ih =>
    simp [decodeStocks, stock_fromJson_toJson, ih]
    rfl

theorem decodeShares_map (shares : List (Int × Int)) :
    decodeShares (shares.map fun kv => (intStr kv.1, Json.num kv.2))
      = Except.ok shares := by
  induction shares with
  | nil => rfl
  | cons kv rest ih =>
    simp [decodeShares, strInt_intStr, ih]
    rfl

theorem player_fromJson_toJson (p : Player) :
    Player.fromJson (Player.toJson p) = Except.ok p := by
  have h : Player.fromJson (Player.toJson p)
      = (decodeShares (p.stock_balances.map fun kv => (intStr kv.1, Json.num kv.2))).bind
          (fun shares =>
            Except.ok (Player.mk p.balance p.income p.initial_income shares)) := rfl
  rw [h, decodeShares_map]
  rfl

/-- C6: decoding the modelled serde encoding of any `Game` (any number of
stocks, any integer ledger values) returns `Ok` of a `Game` equal to the
original in every field: each stock's fields, the player's balance, income,
initial income and shares mapping, and the four configuration
parameters. -/
theorem save_roundtrip (g : Game) :
    Game.fromJson (Game.toJson g) = Except.ok g := by
  have h : Game.fromJson (Game.toJson g)
      = (decodeStocks (g.stocks.map Stock.toJson)).bind (fun stocks =>
          (Player.fromJson (Player.toJson g.player)).bind (fun player =>
            Except.ok (Game.mk stocks player g.goal g.add_stock_cost
              g.initial_income g.income_upgrade_cost))) := rfl
  rw [h, decodeStocks_map, player_fromJson_toJson]
  rfl
